import Mathlib

/-!
Verification of the `collectables` Rust crate: two generic multi-map
extensions (`BTreeMap<K, BTreeSet<V>>` in `src/btree_map_to_set.rs` and
`HashMap<K, HashSet<V>>` in `src/hash_map_to_set.rs`) and two path-index
specializations keyed by file byte length
(`src/btree_map_of_file_len_to_set_of_path_buf.rs` and
`src/hash_map_of_file_len_to_set_of_path_buf.rs`).

Modelling choices:
* A `BTreeSet<V>` is a strictly sorted `List V`; a `BTreeMap<K, S>` is a
  list of pairs strictly sorted by key.  A `HashSet<V>` is a
  duplicate-free `List V` in insertion order; a `HashMap<K, S>` is a
  duplicate-free-keys list of pairs.  Well-formedness (the invariant the
  Rust container types maintain by construction) is a separate predicate;
  the operations are defined on all lists.
* The filesystem metadata query `fs::metadata(path).len()` is an explicit
  oracle parameter `fsLen : PathBuf → Option Nat`; `none` means metadata
  cannot be obtained (missing file, permission denied).  The source calls
  `.expect("metadata")` on the metadata result, which panics on failure;
  a panic is modelled by the operation yielding `none` (no caller-visible
  result), so the path operations return `Option`.
* `u64` file lengths are `Nat` (no arithmetic is performed on them);
  `std::path::PathBuf` is modelled as `String`.
-/

set_option linter.unusedSectionVars false

/-- Model of `std::path::PathBuf`. -/
abbrev PathBuf := String

namespace BTreeSetStd

variable {V : Type} [LinearOrder V]

/-- Model of `BTreeSet::contains`: membership test. -/
def setContains (s : List V) (v : V) : Bool :=
  match s with
  | [] => false
  | x :: xs => if v = x then true else setContains xs v

/-- Model of `BTreeSet::insert`: insert keeping sorted order; return
whether the value is newly added, together with the new set. -/
def setInsert (s : List V) (v : V) : Bool × List V :=
  match s with
  | [] => (true, [v])
  | x :: xs =>
    if v < x then (true, v :: x :: xs)
    else if v = x then (false, x :: xs)
    else
      let r := setInsert xs v
      (r.1, x :: r.2)

/-- Model of `BTreeSet::remove`: return whether the value was present,
together with the new set. -/
def setRemove (s : List V) (v : V) : Bool × List V :=
  match s with
  | [] => (false, [])
  | x :: xs =>
    if v = x then (true, xs)
    else
      let r := setRemove xs v
      (r.1, x :: r.2)

end BTreeSetStd

namespace BTreeMapStd

variable {K V : Type} [LinearOrder K] [LinearOrder V]

/-- Model of `BTreeMap::get` (also the lookup done by `get_mut`). -/
def get (m : List (K × List V)) (k : K) : Option (List V) :=
  match m with
  | [] => none
  | (k0, s0) :: rest => if k = k0 then some s0 else get rest k

/-- Model of the composite expression
`map.entry(key).or_insert(BTreeSet::new()).insert(value)`:
look the key up in key order, creating an empty set entry at its sorted
position when absent, then run `BTreeSet::insert` on that entry's set. -/
def entryInsert (m : List (K × List V)) (k : K) (v : V) :
    Bool × List (K × List V) :=
  match m with
  | [] =>
    let r := BTreeSetStd.setInsert [] v
    (r.1, [(k, r.2)])
  | (k0, s0) :: rest =>
    if k < k0 then
      let r := BTreeSetStd.setInsert [] v
      (r.1, (k, r.2) :: (k0, s0) :: rest)
    else if k = k0 then
      let r := BTreeSetStd.setInsert s0 v
      (r.1, (k0, r.2) :: rest)
    else
      let r := entryInsert rest k v
      (r.1, (k0, s0) :: r.2)

/-- Model of `match map.get_mut(key) { Some(set) => set.remove(value),
None => false }`: the in-place mutation through the `&mut` reference is
made explicit by returning the updated map. -/
def getMutRemove (m : List (K × List V)) (k : K) (v : V) :
    Bool × List (K × List V) :=
  match m with
  | [] => (false, [])
  | (k0, s0) :: rest =>
    if k = k0 then
      let r := BTreeSetStd.setRemove s0 v
      (r.1, (k0, r.2) :: rest)
    else
      let r := getMutRemove rest k v
      (r.1, (k0, s0) :: r.2)

end BTreeMapStd

namespace BTreeMapToSet

variable {K V : Type} [LinearOrder K] [LinearOrder V]

/-- Well-formedness invariant of the Rust type `BTreeMap<K, BTreeSet<V>>`:
keys strictly sorted, every value set strictly sorted. -/
def WF (m : List (K × List V)) : Prop :=
  List.Pairwise (· < ·) (m.map Prod.fst) ∧
    ∀ e ∈ m, List.Pairwise (· < ·) e.2

instance (m : List (K × List V)) : Decidable (WF m) := by
  unfold WF; infer_instance

/-- `sub_contains` from `src/btree_map_to_set.rs`:
`match self.get(key) { Some(set) => set.contains(value), None => false }`. -/
def sub_contains (m : List (K × List V)) (k : K) (v : V) : Bool :=
  match BTreeMapStd.get m k with
  | some set => BTreeSetStd.setContains set v
  | none => false

/-- `sub_insert` from `src/btree_map_to_set.rs`:
`self.entry(key).or_insert(BTreeSet::new()).insert(value)`. -/
def sub_insert (m : List (K × List V)) (k : K) (v : V) :
    Bool × List (K × List V) :=
  BTreeMapStd.entryInsert m k v

/-- `sub_remove` from `src/btree_map_to_set.rs`:
`match self.get_mut(key) { Some(set) => set.remove(&value), None => false }`. -/
def sub_remove (m : List (K × List V)) (k : K) (v : V) :
    Bool × List (K × List V) :=
  BTreeMapStd.getMutRemove m k v

end BTreeMapToSet

namespace HashSetStd

variable {V : Type} [DecidableEq V]

/-- Model of `HashSet::contains`. -/
def setContains (s : List V) (v : V) : Bool :=
  match s with
  | [] => false
  | x :: xs => if v = x then true else setContains xs v

/-- Model of `HashSet::insert`: no-op returning `false` when present,
otherwise add the value (insertion order at the end). -/
def setInsert (s : List V) (v : V) : Bool × List V :=
  if setContains s v then (false, s) else (true, s ++ [v])

/-- Model of `HashSet::remove`: return whether the value was present,
together with the new set. -/
def setRemove (s : List V) (v : V) : Bool × List V :=
  match s with
  | [] => (false, [])
  | x :: xs =>
    if v = x then (true, xs)
    else
      let r := setRemove xs v
      (r.1, x :: r.2)

end HashSetStd

namespace HashMapStd

variable {K V : Type} [DecidableEq K] [DecidableEq V]

/-- Model of `HashMap::get` (also the lookup done by `get_mut`). -/
def get (m : List (K × List V)) (k : K) : Option (List V) :=
  match m with
  | [] => none
  | (k0, s0) :: rest => if k = k0 then some s0 else get rest k

/-- Model of the composite expression
`map.entry(key).or_insert(HashSet::new()).insert(value)`: update the
entry for the key when present, otherwise add a fresh entry, then run
`HashSet::insert` on that entry's set. -/
def entryInsert (m : List (K × List V)) (k : K) (v : V) :
    Bool × List (K × List V) :=
  match m with
  | [] =>
    let r := HashSetStd.setInsert [] v
    (r.1, [(k, r.2)])
  | (k0, s0) :: rest =>
    if k = k0 then
      let r := HashSetStd.setInsert s0 v
      (r.1, (k0, r.2) :: rest)
    else
      let r := entryInsert rest k v
      (r.1, (k0, s0) :: r.2)

/-- Model of `match map.get_mut(key) { Some(set) => set.remove(value),
None => false }` for the hash variant. -/
def getMutRemove (m : List (K × List V)) (k : K) (v : V) :
    Bool × List (K × List V) :=
  match m with
  | [] => (false, [])
  | (k0, s0) :: rest =>
    if k = k0 then
      let r := HashSetStd.setRemove s0 v
      (r.1, (k0, r.2) :: rest)
    else
      let r := getMutRemove rest k v
      (r.1, (k0, s0) :: r.2)

end HashMapStd

namespace HashMapToSet

variable {K V : Type} [DecidableEq K] [DecidableEq V]

/-- Well-formedness invariant of the Rust type `HashMap<K, HashSet<V>>`:
no duplicate keys, no duplicate values within a set. -/
def WF (m : List (K × List V)) : Prop :=
  (m.map Prod.fst).Nodup ∧ ∀ e ∈ m, e.2.Nodup

instance (m : List (K × List V)) : Decidable (WF m) := by
  unfold WF; infer_instance

/-- `sub_contains` from `src/hash_map_to_set.rs`. -/
def sub_contains (m : List (K × List V)) (k : K) (v : V) : Bool :=
  match HashMapStd.get m k with
  | some set => HashSetStd.setContains set v
  | none => false

/-- `sub_insert` from `src/hash_map_to_set.rs`. -/
def sub_insert (m : List (K × List V)) (k : K) (v : V) :
    Bool × List (K × List V) :=
  HashMapStd.entryInsert m k v

/-- `sub_remove` from `src/hash_map_to_set.rs`. -/
def sub_remove (m : List (K × List V)) (k : K) (v : V) :
    Bool × List (K × List V) :=
  HashMapStd.getMutRemove m k v

end HashMapToSet

namespace BTreeMapOfFileLenToSetOfPathBuf

/-- `sub_contains_path` from
`src/btree_map_of_file_len_to_set_of_path_buf.rs`:
`let key = fs::metadata(&value).expect("metadata").len();` followed by
`match self.get(&key) { Some(set) => set.contains(value), None => false }`.
The `expect` panic on a failed metadata query is modelled as `none`. -/
def sub_contains_path (fsLen : PathBuf → Option Nat)
    (m : List (Nat × List PathBuf)) (p : PathBuf) : Option Bool :=
  match fsLen p with
  | none => none
  | some key =>
    some (match BTreeMapStd.get m key with
          | some set => BTreeSetStd.setContains set p
          | none => false)

/-- `sub_insert_path` from
`src/btree_map_of_file_len_to_set_of_path_buf.rs`:
`let key = fs::metadata(&value).expect("metadata").len();` followed by
`self.entry(key).or_insert(BTreeSet::new()).insert(value)`. -/
def sub_insert_path (fsLen : PathBuf → Option Nat)
    (m : List (Nat × List PathBuf)) (p : PathBuf) :
    Option (Bool × List (Nat × List PathBuf)) :=
  match fsLen p with
  | none => none
  | some key => some (BTreeMapStd.entryInsert m key p)

/-- `sub_remove_path` from
`src/btree_map_of_file_len_to_set_of_path_buf.rs`:
`let key = fs::metadata(&value).expect("metadata").len();` followed by
`match self.get_mut(&key) { Some(set) => set.remove(&value), None => false }`. -/
def sub_remove_path (fsLen : PathBuf → Option Nat)
    (m : List (Nat × List PathBuf)) (p : PathBuf) :
    Option (Bool × List (Nat × List PathBuf)) :=
  match fsLen p with
  | none => none
  | some key => some (BTreeMapStd.getMutRemove m key p)

end BTreeMapOfFileLenToSetOfPathBuf

namespace HashMapOfFileLenToSetOfPathBuf

/-- `sub_contains_path` from
`src/hash_map_of_file_len_to_set_of_path_buf.rs`. -/
def sub_contains_path (fsLen : PathBuf → Option Nat)
    (m : List (Nat × List PathBuf)) (p : PathBuf) : Option Bool :=
  match fsLen p with
  | none => none
  | some key =>
    some (match HashMapStd.get m key with
          | some set => HashSetStd.setContains set p
          | none => false)

/-- `sub_insert_path` from
`src/hash_map_of_file_len_to_set_of_path_buf.rs`. -/
def sub_insert_path (fsLen : PathBuf → Option Nat)
    (m : List (Nat × List PathBuf)) (p : PathBuf) :
    Option (Bool × List (Nat × List PathBuf)) :=
  match fsLen p with
  | none => none
  | some key => some (HashMapStd.entryInsert m key p)

/-- `sub_remove_path` from
`src/hash_map_of_file_len_to_set_of_path_buf.rs`. -/
def sub_remove_path (fsLen : PathBuf → Option Nat)
    (m : List (Nat × List PathBuf)) (p : PathBuf) :
    Option (Bool × List (Nat × List PathBuf)) :=
  match fsLen p with
  | none => none
  | some key => some (HashMapStd.getMutRemove m key p)

end HashMapOfFileLenToSetOfPathBuf

namespace BTreeSetStd

variable {V : Type} [LinearOrder V]

/-- Membership characterization of the B-tree set model. -/
theorem setContains_eq_true_iff (s : List V) (v : V) :
    setContains s v = true ↔ v ∈ s := by
  induction s with
  | nil => simp [setContains]
  | cons x xs ih =>
    by_cases h : v = x <;> simp [setContains, h, ih]

/-- After a set insert, the inserted value is a member. -/
theorem setContains_setInsert_self (s : List V) (v : V) :
    setContains (setInsert s v).2 v = true := by
  induction s with
  | nil => simp [setInsert, setContains]
  | cons x xs ih =>
    by_cases h1 : v < x
    · simp [setInsert, setContains, h1]
    · by_cases h2 : v = x
      · simp [setInsert, setContains, h1, h2]
      · simp [setInsert, setContains, h1, h2, ih]

/-- Re-inserting a just-inserted value reports `false` and keeps the set. -/
theorem setInsert_setInsert (s : List V) (v : V) :
    setInsert (setInsert s v).2 v = (false, (setInsert s v).2) := by
  induction s with
  | nil => simp [setInsert]
  | cons x xs ih =>
    by_cases h1 : v < x
    · simp [setInsert, h1]
    · by_cases h2 : v = x
      · simp [setInsert, h1, h2]
      · simp [setInsert, h1, h2, ih]

/-- Removing an absent value reports `false` and keeps the set. -/
theorem setRemove_of_not_contains (s : List V) (v : V)
    (h : setContains s v = false) : setRemove s v = (false, s) := by
  induction s with
  | nil => simp [setRemove]
  | cons x xs ih =>
    simp only [setContains] at h
    by_cases h2 : v = x
    · simp [h2] at h
    · simp [h2] at h
      simp [setRemove, h2, ih h]

/-- On a strictly sorted set, inserting then removing a value makes the
value absent again. -/
theorem setContains_setRemove_setInsert (s : List V) (v : V)
    (hs : List.Pairwise (· < ·) s) :
    setContains (setRemove (setInsert s v).2 v).2 v = false := by
  induction s with
  | nil => simp [setInsert, setRemove, setContains]
  | cons x xs ih =>
    obtain ⟨hx, hxs⟩ := List.pairwise_cons.mp hs
    by_cases h1 : v < x
    · have hvx : v ≠ x := ne_of_lt h1
      have hnotmem : v ∉ x :: xs := by
        intro hmem
        rcases List.mem_cons.mp hmem with h | h
        · exact hvx h
        · exact absurd (lt_trans h1 (hx v h)) (lt_irrefl v)
      simp [setInsert, setRemove, h1]
      rw [← Bool.not_eq_true, setContains_eq_true_iff]
      exact hnotmem
    · by_cases h2 : v = x
      · subst h2
        have hnotmem : v ∉ xs := fun hmem =>
          absurd (hx v hmem) (lt_irrefl v)
        simp [setInsert, setRemove, h1]
        rw [← Bool.not_eq_true, setContains_eq_true_iff]
        exact hnotmem
      · simp [setInsert, setRemove, setContains, h1, h2, ih hxs]

/-- Set insert leaves membership of every other value unchanged. -/
theorem setContains_setInsert_of_ne (s : List V) (v w : V) (h : w ≠ v) :
    setContains (setInsert s v).2 w = setContains s w := by
  induction s with
  | nil => simp [setInsert, setContains, h]
  | cons x xs ih =>
    by_cases h1 : v < x
    · simp [setInsert, setContains, h1, h]
    · by_cases h2 : v = x
      · simp [setInsert, h1, h2]
      · simp [setInsert, setContains, h1, h2, ih]

/-- Set remove leaves membership of every other value unchanged. -/
theorem setContains_setRemove_of_ne (s : List V) (v w : V) (h : w ≠ v) :
    setContains (setRemove s v).2 w = setContains s w := by
  induction s with
  | nil => simp [setRemove]
  | cons x xs ih =>
    by_cases h2 : v = x
    · subst h2
      simp [setRemove, setContains, h]
    · simp [setRemove, setContains, h2, ih]

end BTreeSetStd

namespace HashSetStd

variable {V : Type} [DecidableEq V]

/-- Membership characterization of the hash set model. -/
theorem h_setContains_eq_true_iff (s : List V) (v : V) :
    setContains s v = true ↔ v ∈ s := by
  induction s with
  | nil => simp [setContains]
  | cons x xs ih =>
    by_cases h : v = x <;> simp [setContains, h, ih]

/-- Membership distributes over list append. -/
theorem setContains_append (s t : List V) (w : V) :
    setContains (s ++ t) w = (setContains s w || setContains t w) := by
  induction s with
  | nil => simp [setContains]
  | cons x xs ih =>
    by_cases h : w = x <;> simp [setContains, h, ih]

/-- After a set insert, the inserted value is a member. -/
theorem h_setContains_setInsert_self (s : List V) (v : V) :
    setContains (setInsert s v).2 v = true := by
  unfold setInsert
  by_cases hc : setContains s v
  · simp [hc]
  · simp [hc, setContains_append, setContains]

/-- Re-inserting a just-inserted value reports `false` and keeps the set. -/
theorem h_setInsert_setInsert (s : List V) (v : V) :
    setInsert (setInsert s v).2 v = (false, (setInsert s v).2) := by
  have h := h_setContains_setInsert_self s v
  unfold setInsert at h ⊢
  simp [h]

/-- Removing an absent value reports `false` and keeps the set. -/
theorem h_setRemove_of_not_contains (s : List V) (v : V)
    (h : setContains s v = false) : setRemove s v = (false, s) := by
  induction s with
  | nil => simp [setRemove]
  | cons x xs ih =>
    simp only [setContains] at h
    by_cases h2 : v = x
    · simp [h2] at h
    · simp [h2] at h
      simp [setRemove, h2, ih h]

/-- On a duplicate-free set, after a remove the removed value is absent. -/
theorem setContains_setRemove_of_nodup (s : List V) (v : V)
    (hs : s.Nodup) : setContains (setRemove s v).2 v = false := by
  induction s with
  | nil => simp [setRemove, setContains]
  | cons x xs ih =>
    obtain ⟨hx, hxs⟩ := List.nodup_cons.mp hs
    by_cases h2 : v = x
    · subst h2
      simp [setRemove]
      rw [← Bool.not_eq_true, h_setContains_eq_true_iff]
      exact hx
    · simp [setRemove, setContains, h2, ih hxs]

/-- Set insert preserves freedom from duplicates. -/
theorem setInsert_nodup (s : List V) (v : V) (hs : s.Nodup) :
    (setInsert s v).2.Nodup := by
  unfold setInsert
  by_cases hc : setContains s v
  · simpa [hc]
  · have hv : v ∉ s := by
      rw [← h_setContains_eq_true_iff]
      simp [hc]
    simp [hc, List.nodup_append, hs, hv]

/-- On a duplicate-free set, inserting then removing a value makes the
value absent again. -/
theorem h_setContains_setRemove_setInsert (s : List V) (v : V)
    (hs : s.Nodup) :
    setContains (setRemove (setInsert s v).2 v).2 v = false :=
  setContains_setRemove_of_nodup (setInsert s v).2 v (setInsert_nodup s v hs)

/-- Set insert leaves membership of every other value unchanged. -/
theorem h_setContains_setInsert_of_ne (s : List V) (v w : V) (h : w ≠ v) :
    setContains (setInsert s v).2 w = setContains s w := by
  unfold setInsert
  by_cases hc : setContains s v
  · simp [hc]
  · simp [hc, setContains_append, setContains, h]

/-- Set remove leaves membership of every other value unchanged. -/
theorem h_setContains_setRemove_of_ne (s : List V) (v w : V) (h : w ≠ v) :
    setContains (setRemove s v).2 w = setContains s w := by
  induction s with
  | nil => simp [setRemove]
  | cons x xs ih =>
    by_cases h2 : v = x
    · subst h2
      simp [setRemove, setContains, h]
    · simp [setRemove, setContains, h2, ih]

end HashSetStd

namespace BTreeMapStd

variable {K V : Type} [LinearOrder K] [LinearOrder V]

/-- A key outside the key list is not found. -/
theorem get_eq_none_of_not_mem_keys (m : List (K × List V)) (k : K)
    (h : k ∉ m.map Prod.fst) : get m k = none := by
  induction m with
  | nil => simp [get]
  | cons e rest ih =>
    obtain ⟨k0, s0⟩ := e
    simp only [List.map_cons, List.mem_cons] at h
    push_neg at h
    simp [get, h.1, ih h.2]

/-- Lookup of a different key is unaffected by `entryInsert`. -/
theorem get_entryInsert_of_ne (m : List (K × List V)) (k q : K) (v : V)
    (h : q ≠ k) : get (entryInsert m k v).2 q = get m q := by
  induction m with
  | nil => simp [entryInsert, get, h]
  | cons e rest ih =>
    obtain ⟨k0, s0⟩ := e
    by_cases h1 : k < k0
    · simp [entryInsert, get, h1, h]
    · by_cases h2 : k = k0
      · subst h2
        simp [entryInsert, get, h1, h]
      · simp [entryInsert, get, h1, h2, ih]

/-- Lookup of a different key is unaffected by `getMutRemove`. -/
theorem get_getMutRemove_of_ne (m : List (K × List V)) (k q : K) (v : V)
    (h : q ≠ k) : get (getMutRemove m k v).2 q = get m q := by
  induction m with
  | nil => simp [getMutRemove, get]
  | cons e rest ih =>
    obtain ⟨k0, s0⟩ := e
    by_cases h2 : k = k0
    · subst h2
      simp [getMutRemove, get, h]
    · by_cases h3 : q = k0
      · simp [getMutRemove, get, h2, h3]
      · simp [getMutRemove, get, h2, h3, ih]

/-- With sorted keys, `entryInsert` puts exactly the set-insert of the old
bucket (empty when the key was absent) at the key. -/
theorem get_entryInsert_self (m : List (K × List V)) (k : K) (v : V)
    (hkeys : List.Pairwise (· < ·) (m.map Prod.fst)) :
    get (entryInsert m k v).2 k
      = some (BTreeSetStd.setInsert ((get m k).getD []) v).2 := by
  induction m with
  | nil => simp [entryInsert, get]
  | cons e rest ih =>
    obtain ⟨k0, s0⟩ := e
    simp only [List.map_cons, List.pairwise_cons] at hkeys
    obtain ⟨hk0, hrest⟩ := hkeys
    by_cases h1 : k < k0
    · have hnot : k ∉ rest.map Prod.fst := fun hmem =>
        absurd (lt_trans h1 (hk0 k hmem)) (lt_irrefl k)
      have hne : ¬(k = k0) := ne_of_lt h1
      simp [entryInsert, get, h1, hne, get_eq_none_of_not_mem_keys rest k hnot]
    · by_cases h2 : k = k0
      · subst h2
        simp [entryInsert, get, h1]
      · simp [entryInsert, get, h1, h2, ih hrest]

/-- `getMutRemove` puts exactly the set-remove of the old bucket at the
key, and does nothing when the key is absent. -/
theorem get_getMutRemove_self (m : List (K × List V)) (k : K) (v : V) :
    get (getMutRemove m k v).2 k
      = (get m k).map (fun s => (BTreeSetStd.setRemove s v).2) := by
  induction m with
  | nil => simp [getMutRemove, get]
  | cons e rest ih =>
    obtain ⟨k0, s0⟩ := e
    by_cases h2 : k = k0
    · subst h2
      simp [getMutRemove, get]
    · simp [getMutRemove, get, h2, ih]

/-- `getMutRemove` never adds or deletes a key. -/
theorem getMutRemove_keys (m : List (K × List V)) (k : K) (v : V) :
    (getMutRemove m k v).2.map Prod.fst = m.map Prod.fst := by
  induction m with
  | nil => simp [getMutRemove]
  | cons e rest ih =>
    obtain ⟨k0, s0⟩ := e
    by_cases h2 : k = k0
    · subst h2
      simp [getMutRemove]
    · simp [getMutRemove, h2, ih]

end BTreeMapStd

namespace HashMapStd

variable {K V : Type} [DecidableEq K] [DecidableEq V]

/-- Lookup of a different key is unaffected by `entryInsert`. -/
theorem h_get_entryInsert_of_ne (m : List (K × List V)) (k q : K) (v : V)
    (h : q ≠ k) : get (entryInsert m k v).2 q = get m q := by
  induction m with
  | nil => simp [entryInsert, get, h]
  | cons e rest ih =>
    obtain ⟨k0, s0⟩ := e
    by_cases h2 : k = k0
    · subst h2
      simp [entryInsert, get, h]
    · simp [entryInsert, get, h2, ih]

/-- Lookup of a different key is unaffected by `getMutRemove`. -/
theorem h_get_getMutRemove_of_ne (m : List (K × List V)) (k q : K) (v : V)
    (h : q ≠ k) : get (getMutRemove m k v).2 q = get m q := by
  induction m with
  | nil => simp [getMutRemove, get]
  | cons e rest ih =>
    obtain ⟨k0, s0⟩ := e
    by_cases h2 : k = k0
    · subst h2
      simp [getMutRemove, get, h]
    · by_cases h3 : q = k0
      · simp [getMutRemove, get, h2, h3]
      · simp [getMutRemove, get, h2, h3, ih]

/-- `entryInsert` puts exactly the set-insert of the old bucket (empty
when the key was absent) at the key. -/
theorem h_get_entryInsert_self (m : List (K × List V)) (k : K) (v : V) :
    get (entryInsert m k v).2 k
      = some (HashSetStd.setInsert ((get m k).getD []) v).2 := by
  induction m with
  | nil => simp [entryInsert, get]
  | cons e rest ih =>
    obtain ⟨k0, s0⟩ := e
    by_cases h2 : k = k0
    · subst h2
      simp [entryInsert, get]
    · simp [entryInsert, get, h2, ih]

/-- `getMutRemove` puts exactly the set-remove of the old bucket at the
key, and does nothing when the key is absent. -/
theorem h_get_getMutRemove_self (m : List (K × List V)) (k : K) (v : V) :
    get (getMutRemove m k v).2 k
      = (get m k).map (fun s => (HashSetStd.setRemove s v).2) := by
  induction m with
  | nil => simp [getMutRemove, get]
  | cons e rest ih =>
    obtain ⟨k0, s0⟩ := e
    by_cases h2 : k = k0
    · subst h2
      simp [getMutRemove, get]
    · simp [getMutRemove, get, h2, ih]

/-- `getMutRemove` never adds or deletes a key. -/
theorem h_getMutRemove_keys (m : List (K × List V)) (k : K) (v : V) :
    (getMutRemove m k v).2.map Prod.fst = m.map Prod.fst := by
  induction m with
  | nil => simp [getMutRemove]
  | cons e rest ih =>
    obtain ⟨k0, s0⟩ := e
    by_cases h2 : k = k0
    · subst h2
      simp [getMutRemove]
    · simp [getMutRemove, h2, ih]

end HashMapStd

namespace BTreeMapStd

variable {K V : Type} [LinearOrder K] [LinearOrder V]

/-- A successful lookup returns a bucket actually stored in the map. -/
theorem mem_of_get_eq_some (m : List (K × List V)) (k : K) (s : List V)
    (h : get m k = some s) : (k, s) ∈ m := by
  induction m with
  | nil => simp [get] at h
  | cons e rest ih =>
    obtain ⟨k0, s0⟩ := e
    by_cases h2 : k = k0
    · subst h2
      simp [get] at h
      simp [h]
    · simp [get, h2] at h
      exact List.mem_cons_of_mem _ (ih h)

end BTreeMapStd

namespace HashMapStd

variable {K V : Type} [DecidableEq K] [DecidableEq V]

/-- A successful lookup returns a bucket actually stored in the map. -/
theorem h_mem_of_get_eq_some (m : List (K × List V)) (k : K) (s : List V)
    (h : get m k = some s) : (k, s) ∈ m := by
  induction m with
  | nil => simp [get] at h
  | cons e rest ih =>
    obtain ⟨k0, s0⟩ := e
    by_cases h2 : k = k0
    · subst h2
      simp [get] at h
      simp [h]
    · simp [get, h2] at h
      exact List.mem_cons_of_mem _ (ih h)

end HashMapStd

namespace BTreeMapToSet

variable {K V : Type} [LinearOrder K] [LinearOrder V]

/-- After an insert the inserted pair is a member (ordered variant). -/
theorem contains_after_insert (m : List (K × List V)) (k : K) (v : V) :
    sub_contains (sub_insert m k v).2 k v = true := by
  induction m with
  | nil =>
    simp [sub_contains, sub_insert, BTreeMapStd.entryInsert, BTreeMapStd.get,
      BTreeSetStd.setContains_setInsert_self]
  | cons e rest ih =>
    obtain ⟨k0, s0⟩ := e
    by_cases h1 : k < k0
    · simp [sub_contains, sub_insert, BTreeMapStd.entryInsert, BTreeMapStd.get,
        h1, BTreeSetStd.setContains_setInsert_self]
    · by_cases h2 : k = k0
      · subst h2
        simp [sub_contains, sub_insert, BTreeMapStd.entryInsert, BTreeMapStd.get,
          h1, BTreeSetStd.setContains_setInsert_self]
      · simpa [sub_contains, sub_insert, BTreeMapStd.entryInsert, BTreeMapStd.get,
          h1, h2] using ih

/-- Inserting an already-just-inserted pair reports `false` and leaves the
whole map state unchanged (ordered variant). -/
theorem insert_insert (m : List (K × List V)) (k : K) (v : V) :
    sub_insert (sub_insert m k v).2 k v = (false, (sub_insert m k v).2) := by
  induction m with
  | nil =>
    simp [sub_insert, BTreeMapStd.entryInsert, BTreeSetStd.setInsert_setInsert]
  | cons e rest ih =>
    obtain ⟨k0, s0⟩ := e
    by_cases h1 : k < k0
    · simp [sub_insert, BTreeMapStd.entryInsert, h1,
        BTreeSetStd.setInsert_setInsert]
    · by_cases h2 : k = k0
      · subst h2
        simp [sub_insert, BTreeMapStd.entryInsert, h1,
          BTreeSetStd.setInsert_setInsert]
      · simp only [sub_insert] at ih
        simp [sub_insert, BTreeMapStd.entryInsert, h1, h2, ih]

/-- Removing under an absent key reports `false` and leaves the whole map
state unchanged (ordered variant). -/
theorem remove_of_get_none (m : List (K × List V)) (k : K) (v : V)
    (h : BTreeMapStd.get m k = none) : sub_remove m k v = (false, m) := by
  induction m with
  | nil => simp [sub_remove, BTreeMapStd.getMutRemove]
  | cons e rest ih =>
    obtain ⟨k0, s0⟩ := e
    by_cases h2 : k = k0
    · simp [BTreeMapStd.get, h2] at h
    · have h3 : BTreeMapStd.get rest k = none := by
        simpa [BTreeMapStd.get, h2] using h
      have := ih h3
      simp only [sub_remove] at this
      simp [sub_remove, BTreeMapStd.getMutRemove, h2, this]

/-- Removing a value absent from a present key's bucket reports `false`
and leaves the whole map state unchanged (ordered variant). -/
theorem remove_of_not_contains (m : List (K × List V)) (k : K) (v : V)
    (s : List V) (hg : BTreeMapStd.get m k = some s)
    (hc : BTreeSetStd.setContains s v = false) :
    sub_remove m k v = (false, m) := by
  induction m with
  | nil => simp [BTreeMapStd.get] at hg
  | cons e rest ih =>
    obtain ⟨k0, s0⟩ := e
    by_cases h2 : k = k0
    · subst h2
      simp [BTreeMapStd.get] at hg
      subst hg
      simp [sub_remove, BTreeMapStd.getMutRemove,
        BTreeSetStd.setRemove_of_not_contains s0 v hc]
    · have hg2 : BTreeMapStd.get rest k = some s := by
        simpa [BTreeMapStd.get, h2] using hg
      have := ih hg2
      simp only [sub_remove] at this
      simp [sub_remove, BTreeMapStd.getMutRemove, h2, this]

/-- Inserting then removing a pair makes it absent (ordered variant). -/
theorem contains_remove_insert (m : List (K × List V)) (k : K) (v : V)
    (hWF : WF m) :
    sub_contains (sub_remove (sub_insert m k v).2 k v).2 k v = false := by
  have h1 := BTreeMapStd.get_entryInsert_self m k v hWF.1
  have h2 := BTreeMapStd.get_getMutRemove_self
    (BTreeMapStd.entryInsert m k v).2 k v
  rw [h1] at h2
  have hnod : List.Pairwise (· < ·) ((BTreeMapStd.get m k).getD []) := by
    cases hg : BTreeMapStd.get m k with
    | none => simp
    | some s =>
      have := hWF.2 (k, s) (BTreeMapStd.mem_of_get_eq_some m k s hg)
      simpa using this
  simp [sub_contains, sub_remove, sub_insert, h2,
    BTreeSetStd.setContains_setRemove_setInsert _ _ hnod]

/-- Membership under an absent key is `false` (ordered variant). -/
theorem contains_of_get_none (m : List (K × List V)) (k : K) (v : V)
    (h : BTreeMapStd.get m k = none) : sub_contains m k v = false := by
  simp [sub_contains, h]

/-- Insert changes no membership other than the inserted pair (ordered
variant; needs the B-tree invariant so that the key lookup is
unambiguous). -/
theorem contains_insert_frame (m : List (K × List V)) (k : K) (v : V)
    (q : K) (w : V) (hWF : WF m) (hne : (q, w) ≠ (k, v)) :
    sub_contains (sub_insert m k v).2 q w = sub_contains m q w := by
  by_cases hk : q = k
  · subst hk
    have hw : w ≠ v := fun h => hne (by rw [h])
    have hself := BTreeMapStd.get_entryInsert_self m q v hWF.1
    cases hg : BTreeMapStd.get m q with
    | none =>
      rw [hg] at hself
      simp only [Option.getD_none] at hself
      simp [sub_contains, sub_insert, hself, hg, hw,
        BTreeSetStd.setContains_setInsert_of_ne _ _ _ hw,
        BTreeSetStd.setContains]
    | some s =>
      rw [hg] at hself
      simp only [Option.getD_some] at hself
      simp [sub_contains, sub_insert, hself, hg, hw,
        BTreeSetStd.setContains_setInsert_of_ne _ _ _ hw]
  · have h := BTreeMapStd.get_entryInsert_of_ne m k q v hk
    simp [sub_contains, sub_insert, h]

/-- Remove changes no membership other than the removed pair (ordered
variant). -/
theorem contains_remove_frame (m : List (K × List V)) (k : K) (v : V)
    (q : K) (w : V) (hne : (q, w) ≠ (k, v)) :
    sub_contains (sub_remove m k v).2 q w = sub_contains m q w := by
  by_cases hk : q = k
  · subst hk
    have hw : w ≠ v := fun h => hne (by rw [h])
    have hself := BTreeMapStd.get_getMutRemove_self m q v
    cases hg : BTreeMapStd.get m q with
    | none =>
      rw [hg] at hself
      simp only [Option.map_none'] at hself
      simp [sub_contains, sub_remove, hself, hg]
    | some s =>
      rw [hg] at hself
      simp only [Option.map_some'] at hself
      simp [sub_contains, sub_remove, hself, hg, hw,
        BTreeSetStd.setContains_setRemove_of_ne _ _ _ hw]
  · have h := BTreeMapStd.get_getMutRemove_of_ne m k q v hk
    simp [sub_contains, sub_remove, h]

end BTreeMapToSet

namespace HashMapToSet

variable {K V : Type} [DecidableEq K] [DecidableEq V]

/-- After an insert the inserted pair is a member (hash variant). -/
theorem h_contains_after_insert (m : List (K × List V)) (k : K) (v : V) :
    sub_contains (sub_insert m k v).2 k v = true := by
  have hself := HashMapStd.h_get_entryInsert_self m k v
  simp [sub_contains, sub_insert, hself,
    HashSetStd.h_setContains_setInsert_self]

/-- Inserting an already-just-inserted pair reports `false` and leaves the
whole map state unchanged (hash variant). -/
theorem h_insert_insert (m : List (K × List V)) (k : K) (v : V) :
    sub_insert (sub_insert m k v).2 k v = (false, (sub_insert m k v).2) := by
  induction m with
  | nil =>
    simp [sub_insert, HashMapStd.entryInsert, HashSetStd.h_setInsert_setInsert]
  | cons e rest ih =>
    obtain ⟨k0, s0⟩ := e
    by_cases h2 : k = k0
    · subst h2
      simp [sub_insert, HashMapStd.entryInsert, HashSetStd.h_setInsert_setInsert]
    · simp only [sub_insert] at ih
      simp [sub_insert, HashMapStd.entryInsert, h2, ih]

/-- Removing under an absent key reports `false` and leaves the whole map
state unchanged (hash variant). -/
theorem h_remove_of_get_none (m : List (K × List V)) (k : K) (v : V)
    (h : HashMapStd.get m k = none) : sub_remove m k v = (false, m) := by
  induction m with
  | nil => simp [sub_remove, HashMapStd.getMutRemove]
  | cons e rest ih =>
    obtain ⟨k0, s0⟩ := e
    by_cases h2 : k = k0
    · simp [HashMapStd.get, h2] at h
    · have h3 : HashMapStd.get rest k = none := by
        simpa [HashMapStd.get, h2] using h
      have := ih h3
      simp only [sub_remove] at this
      simp [sub_remove, HashMapStd.getMutRemove, h2, this]

/-- Removing a value absent from a present key's bucket reports `false`
and leaves the whole map state unchanged (hash variant). -/
theorem h_remove_of_not_contains (m : List (K × List V)) (k : K) (v : V)
    (s : List V) (hg : HashMapStd.get m k = some s)
    (hc : HashSetStd.setContains s v = false) :
    sub_remove m k v = (false, m) := by
  induction m with
  | nil => simp [HashMapStd.get] at hg
  | cons e rest ih =>
    obtain ⟨k0, s0⟩ := e
    by_cases h2 : k = k0
    · subst h2
      simp [HashMapStd.get] at hg
      subst hg
      simp [sub_remove, HashMapStd.getMutRemove,
        HashSetStd.h_setRemove_of_not_contains s0 v hc]
    · have hg2 : HashMapStd.get rest k = some s := by
        simpa [HashMapStd.get, h2] using hg
      have := ih hg2
      simp only [sub_remove] at this
      simp [sub_remove, HashMapStd.getMutRemove, h2, this]

/-- Inserting then removing a pair makes it absent (hash variant). -/
theorem h_contains_remove_insert (m : List (K × List V)) (k : K) (v : V)
    (hWF : WF m) :
    sub_contains (sub_remove (sub_insert m k v).2 k v).2 k v = false := by
  have h1 := HashMapStd.h_get_entryInsert_self m k v
  have h2 := HashMapStd.h_get_getMutRemove_self
    (HashMapStd.entryInsert m k v).2 k v
  rw [h1] at h2
  have hnod : ((HashMapStd.get m k).getD []).Nodup := by
    cases hg : HashMapStd.get m k with
    | none => simp
    | some s =>
      have := hWF.2 (k, s) (HashMapStd.h_mem_of_get_eq_some m k s hg)
      simpa using this
  simp [sub_contains, sub_remove, sub_insert, h2,
    HashSetStd.h_setContains_setRemove_setInsert _ _ hnod]

/-- Membership under an absent key is `false` (hash variant). -/
theorem h_contains_of_get_none (m : List (K × List V)) (k : K) (v : V)
    (h : HashMapStd.get m k = none) : sub_contains m k v = false := by
  simp [sub_contains, h]

/-- Insert changes no membership other than the inserted pair (hash
variant). -/
theorem h_contains_insert_frame (m : List (K × List V)) (k : K) (v : V)
    (q : K) (w : V) (hne : (q, w) ≠ (k, v)) :
    sub_contains (sub_insert m k v).2 q w = sub_contains m q w := by
  by_cases hk : q = k
  · subst hk
    have hw : w ≠ v := fun h => hne (by rw [h])
    have hself := HashMapStd.h_get_entryInsert_self m q v
    cases hg : HashMapStd.get m q with
    | none =>
      rw [hg] at hself
      simp only [Option.getD_none] at hself
      simp [sub_contains, sub_insert, hself, hg, hw,
        HashSetStd.h_setContains_setInsert_of_ne _ _ _ hw,
        HashSetStd.setContains]
    | some s =>
      rw [hg] at hself
      simp only [Option.getD_some] at hself
      simp [sub_contains, sub_insert, hself, hg, hw,
        HashSetStd.h_setContains_setInsert_of_ne _ _ _ hw]
  · have h := HashMapStd.h_get_entryInsert_of_ne m k q v hk
    simp [sub_contains, sub_insert, h]

/-- Remove changes no membership other than the removed pair (hash
variant). -/
theorem h_contains_remove_frame (m : List (K × List V)) (k : K) (v : V)
    (q : K) (w : V) (hne : (q, w) ≠ (k, v)) :
    sub_contains (sub_remove m k v).2 q w = sub_contains m q w := by
  by_cases hk : q = k
  · subst hk
    have hw : w ≠ v := fun h => hne (by rw [h])
    have hself := HashMapStd.h_get_getMutRemove_self m q v
    cases hg : HashMapStd.get m q with
    | none =>
      rw [hg] at hself
      simp only [Option.map_none'] at hself
      simp [sub_contains, sub_remove, hself, hg]
    | some s =>
      rw [hg] at hself
      simp only [Option.map_some'] at hself
      simp [sub_contains, sub_remove, hself, hg, hw,
        HashSetStd.h_setContains_setRemove_of_ne _ _ _ hw]
  · have h := HashMapStd.h_get_getMutRemove_of_ne m k q v hk
    simp [sub_contains, sub_remove, h]

end HashMapToSet

/-- C1 (counterexample to the claim as stated): with a filesystem oracle
that cannot provide metadata for the path, each path-index operation
panics -- the `.expect("metadata")` call aborts, modelled as `none` -- so
no `MetadataError` (indeed no value at all) is returned to the caller. -/
theorem claim_C1_counterexample :
    BTreeMapOfFileLenToSetOfPathBuf.sub_contains_path
      (fun _ => none) [] "alpha.txt" = none ∧
    BTreeMapOfFileLenToSetOfPathBuf.sub_insert_path
      (fun _ => none) [] "alpha.txt" = none ∧
    BTreeMapOfFileLenToSetOfPathBuf.sub_remove_path
      (fun _ => none) [] "alpha.txt" = none ∧
    (¬ ∃ b, BTreeMapOfFileLenToSetOfPathBuf.sub_contains_path
      (fun _ => none) [] "alpha.txt" = some b) ∧
    HashMapOfFileLenToSetOfPathBuf.sub_contains_path
      (fun _ => none) [] "alpha.txt" = none ∧
    HashMapOfFileLenToSetOfPathBuf.sub_insert_path
      (fun _ => none) [] "alpha.txt" = none ∧
    HashMapOfFileLenToSetOfPathBuf.sub_remove_path
      (fun _ => none) [] "alpha.txt" = none := by
  simp [BTreeMapOfFileLenToSetOfPathBuf.sub_contains_path,
    BTreeMapOfFileLenToSetOfPathBuf.sub_insert_path,
    BTreeMapOfFileLenToSetOfPathBuf.sub_remove_path,
    HashMapOfFileLenToSetOfPathBuf.sub_contains_path,
    HashMapOfFileLenToSetOfPathBuf.sub_insert_path,
    HashMapOfFileLenToSetOfPathBuf.sub_remove_path]

/-- C1 (amended): for every path whose filesystem metadata cannot be
obtained, each of the six path-index operations panics (the `expect`
abort, modelled as `none`); the failure is never swallowed or converted
into a normal boolean result, but it is a panic, not a returned
`MetadataError` value. -/
theorem claim_C1_metadata_failure_panics
    (fsLen : PathBuf → Option Nat)
    (mB mH : List (Nat × List PathBuf)) (p : PathBuf)
    (h : fsLen p = none) :
    BTreeMapOfFileLenToSetOfPathBuf.sub_contains_path fsLen mB p = none ∧
    BTreeMapOfFileLenToSetOfPathBuf.sub_insert_path fsLen mB p = none ∧
    BTreeMapOfFileLenToSetOfPathBuf.sub_remove_path fsLen mB p = none ∧
    HashMapOfFileLenToSetOfPathBuf.sub_contains_path fsLen mH p = none ∧
    HashMapOfFileLenToSetOfPathBuf.sub_insert_path fsLen mH p = none ∧
    HashMapOfFileLenToSetOfPathBuf.sub_remove_path fsLen mH p = none := by
  simp [BTreeMapOfFileLenToSetOfPathBuf.sub_contains_path,
    BTreeMapOfFileLenToSetOfPathBuf.sub_insert_path,
    BTreeMapOfFileLenToSetOfPathBuf.sub_remove_path,
    HashMapOfFileLenToSetOfPathBuf.sub_contains_path,
    HashMapOfFileLenToSetOfPathBuf.sub_insert_path,
    HashMapOfFileLenToSetOfPathBuf.sub_remove_path, h]

/-- Witness for C1 (amended) at a concrete oracle, map and path. -/
theorem claim_C1_metadata_failure_panics_witness :
    ((fun _ => (none : Option Nat)) "alpha.txt" = none) ∧
    (BTreeMapOfFileLenToSetOfPathBuf.sub_contains_path
       (fun _ => none) [(5, ["bravo.txt"])] "alpha.txt" = none ∧
     BTreeMapOfFileLenToSetOfPathBuf.sub_insert_path
       (fun _ => none) [(5, ["bravo.txt"])] "alpha.txt" = none ∧
     BTreeMapOfFileLenToSetOfPathBuf.sub_remove_path
       (fun _ => none) [(5, ["bravo.txt"])] "alpha.txt" = none ∧
     HashMapOfFileLenToSetOfPathBuf.sub_contains_path
       (fun _ => none) [] "alpha.txt" = none ∧
     HashMapOfFileLenToSetOfPathBuf.sub_insert_path
       (fun _ => none) [] "alpha.txt" = none ∧
     HashMapOfFileLenToSetOfPathBuf.sub_remove_path
       (fun _ => none) [] "alpha.txt" = none) :=
  ⟨rfl, claim_C1_metadata_failure_panics (fun _ => none)
    [(5, ["bravo.txt"])] [] "alpha.txt" rfl⟩

/-- C2: for both variants, after `sub_insert(k, v)` the query
`sub_contains(k, v)` on the resulting state returns `true`. -/
theorem claim_C2_insert_then_contains
    {K V K2 V2 : Type} [LinearOrder K] [LinearOrder V]
    [DecidableEq K2] [DecidableEq V2]
    (m : List (K × List V)) (k : K) (v : V)
    (m2 : List (K2 × List V2)) (k2 : K2) (v2 : V2) :
    BTreeMapToSet.sub_contains (BTreeMapToSet.sub_insert m k v).2 k v
      = true ∧
    HashMapToSet.sub_contains (HashMapToSet.sub_insert m2 k2 v2).2 k2 v2
      = true :=
  ⟨BTreeMapToSet.contains_after_insert m k v,
   HashMapToSet.h_contains_after_insert m2 k2 v2⟩

/-- C3: for both variants, on a well-formed state, after `sub_insert(k, v)`
followed by `sub_remove(k, v)` the query `sub_contains(k, v)` returns
`false`. -/
theorem claim_C3_insert_remove_then_not_contains
    {K V K2 V2 : Type} [LinearOrder K] [LinearOrder V]
    [DecidableEq K2] [DecidableEq V2]
    (m : List (K × List V)) (k : K) (v : V)
    (m2 : List (K2 × List V2)) (k2 : K2) (v2 : V2)
    (h1 : BTreeMapToSet.WF m) (h2 : HashMapToSet.WF m2) :
    BTreeMapToSet.sub_contains
      (BTreeMapToSet.sub_remove
        (BTreeMapToSet.sub_insert m k v).2 k v).2 k v = false ∧
    HashMapToSet.sub_contains
      (HashMapToSet.sub_remove
        (HashMapToSet.sub_insert m2 k2 v2).2 k2 v2).2 k2 v2 = false :=
  ⟨BTreeMapToSet.contains_remove_insert m k v h1,
   HashMapToSet.h_contains_remove_insert m2 k2 v2 h2⟩

/-- Witness for C3 at concrete well-formed maps. -/
theorem claim_C3_insert_remove_then_not_contains_witness :
    BTreeMapToSet.WF ([(1, [2, 4]), (3, [5])] : List (Nat × List Nat)) ∧
    HashMapToSet.WF ([(1, [4, 2])] : List (Nat × List Nat)) ∧
    (BTreeMapToSet.sub_contains
      (BTreeMapToSet.sub_remove
        (BTreeMapToSet.sub_insert
          ([(1, [2, 4]), (3, [5])] : List (Nat × List Nat)) 1 7).2 1 7).2
      1 7 = false ∧
     HashMapToSet.sub_contains
      (HashMapToSet.sub_remove
        (HashMapToSet.sub_insert
          ([(1, [4, 2])] : List (Nat × List Nat)) 9 7).2 9 7).2
      9 7 = false) :=
  ⟨by decide, by decide,
   claim_C3_insert_remove_then_not_contains
     [(1, [2, 4]), (3, [5])] 1 7 [(1, [4, 2])] 9 7
     (by decide) (by decide)⟩

/-- C4: for both variants, performing `sub_insert(k, v)` twice in a row
makes the second call return `false` and leaves the map state exactly as
it was after the first call. -/
theorem claim_C4_insert_twice_second_noop
    {K V K2 V2 : Type} [LinearOrder K] [LinearOrder V]
    [DecidableEq K2] [DecidableEq V2]
    (m : List (K × List V)) (k : K) (v : V)
    (m2 : List (K2 × List V2)) (k2 : K2) (v2 : V2) :
    BTreeMapToSet.sub_insert (BTreeMapToSet.sub_insert m k v).2 k v
      = (false, (BTreeMapToSet.sub_insert m k v).2) ∧
    HashMapToSet.sub_insert (HashMapToSet.sub_insert m2 k2 v2).2 k2 v2
      = (false, (HashMapToSet.sub_insert m2 k2 v2).2) :=
  ⟨BTreeMapToSet.insert_insert m k v,
   HashMapToSet.h_insert_insert m2 k2 v2⟩

/-- C5: for both variants, `sub_remove(k, v)` on a key that is absent
returns `false` and leaves the map state exactly equal to the input (no
key entry is created, no set is modified). -/
theorem claim_C5_remove_absent_key_noop
    {K V K2 V2 : Type} [LinearOrder K] [LinearOrder V]
    [DecidableEq K2] [DecidableEq V2]
    (m : List (K × List V)) (k : K) (v : V)
    (m2 : List (K2 × List V2)) (k2 : K2) (v2 : V2)
    (h1 : BTreeMapStd.get m k = none) (h2 : HashMapStd.get m2 k2 = none) :
    BTreeMapToSet.sub_remove m k v = (false, m) ∧
    HashMapToSet.sub_remove m2 k2 v2 = (false, m2) :=
  ⟨BTreeMapToSet.remove_of_get_none m k v h1,
   HashMapToSet.h_remove_of_get_none m2 k2 v2 h2⟩

/-- Witness for C5 at concrete maps with an absent key. -/
theorem claim_C5_remove_absent_key_noop_witness :
    BTreeMapStd.get ([(1, [2])] : List (Nat × List Nat)) 3 = none ∧
    HashMapStd.get ([(1, [2])] : List (Nat × List Nat)) 3 = none ∧
    (BTreeMapToSet.sub_remove ([(1, [2])] : List (Nat × List Nat)) 3 2
       = (false, [(1, [2])]) ∧
     HashMapToSet.sub_remove ([(1, [2])] : List (Nat × List Nat)) 3 2
       = (false, [(1, [2])])) :=
  ⟨by decide, by decide,
   claim_C5_remove_absent_key_noop [(1, [2])] 3 2 [(1, [2])] 3 2
     (by decide) (by decide)⟩

/-- C6: `sub_remove` (and `sub_remove_path` when metadata succeeds) never
deletes a key entry: the key list is preserved exactly, and a key that was
present before the remove is still present afterwards, holding the
set-remove of its old bucket (possibly now empty). -/
theorem claim_C6_remove_never_prunes_key
    {K V K2 V2 : Type} [LinearOrder K] [LinearOrder V]
    [DecidableEq K2] [DecidableEq V2]
    (m : List (K × List V)) (k : K) (v : V) (s : List V)
    (m2 : List (K2 × List V2)) (k2 : K2) (v2 : V2) (s2 : List V2)
    (fsLen : PathBuf → Option Nat) (mp : List (Nat × List PathBuf))
    (p : PathBuf) (L : Nat)
    (hs : BTreeMapStd.get m k = some s)
    (hs2 : HashMapStd.get m2 k2 = some s2)
    (hfs : fsLen p = some L) :
    (BTreeMapToSet.sub_remove m k v).2.map Prod.fst = m.map Prod.fst ∧
    BTreeMapStd.get (BTreeMapToSet.sub_remove m k v).2 k
      = some (BTreeSetStd.setRemove s v).2 ∧
    (HashMapToSet.sub_remove m2 k2 v2).2.map Prod.fst = m2.map Prod.fst ∧
    HashMapStd.get (HashMapToSet.sub_remove m2 k2 v2).2 k2
      = some (HashSetStd.setRemove s2 v2).2 ∧
    (BTreeMapOfFileLenToSetOfPathBuf.sub_remove_path fsLen mp p).map
      (fun r => r.2.map Prod.fst) = some (mp.map Prod.fst) := by
  refine ⟨BTreeMapStd.getMutRemove_keys m k v, ?_,
    HashMapStd.h_getMutRemove_keys m2 k2 v2, ?_, ?_⟩
  · rw [BTreeMapToSet.sub_remove, BTreeMapStd.get_getMutRemove_self, hs,
      Option.map_some']
  · rw [HashMapToSet.sub_remove, HashMapStd.h_get_getMutRemove_self, hs2,
      Option.map_some']
  · simp [BTreeMapOfFileLenToSetOfPathBuf.sub_remove_path, hfs,
      BTreeMapStd.getMutRemove_keys]

/-- Witness for C6 at concrete maps whose bucket becomes empty. -/
theorem claim_C6_remove_never_prunes_key_witness :
    BTreeMapStd.get ([(1, [2])] : List (Nat × List Nat)) 1 = some [2] ∧
    HashMapStd.get ([(1, [2])] : List (Nat × List Nat)) 1 = some [2] ∧
    ((fun _ => some 5) "alpha.txt" = (some 5 : Option Nat)) ∧
    ((BTreeMapToSet.sub_remove ([(1, [2])] : List (Nat × List Nat)) 1 2).2.map
        Prod.fst = [(1, [2])].map Prod.fst ∧
     BTreeMapStd.get
        (BTreeMapToSet.sub_remove ([(1, [2])] : List (Nat × List Nat)) 1 2).2 1
        = some (BTreeSetStd.setRemove [2] 2).2 ∧
     (HashMapToSet.sub_remove ([(1, [2])] : List (Nat × List Nat)) 1 2).2.map
        Prod.fst = [(1, [2])].map Prod.fst ∧
     HashMapStd.get
        (HashMapToSet.sub_remove ([(1, [2])] : List (Nat × List Nat)) 1 2).2 1
        = some (HashSetStd.setRemove [2] 2).2 ∧
     (BTreeMapOfFileLenToSetOfPathBuf.sub_remove_path (fun _ => some 5)
        [(5, ["alpha.txt"])] "alpha.txt").map (fun r => r.2.map Prod.fst)
        = some ([(5, ["alpha.txt"])].map Prod.fst)) :=
  ⟨by decide, by decide, rfl,
   claim_C6_remove_never_prunes_key [(1, [2])] 1 2 [2] [(1, [2])] 1 2 [2]
     (fun _ => some 5) [(5, ["alpha.txt"])] "alpha.txt" 5
     (by decide) (by decide) rfl⟩

/-- C7: for both variants, `sub_contains` on an absent key returns
`false`; it is a total function on the embedded state (its codomain is
`Bool` and it does not return a state, mirroring the side-effect-free
`&self` receiver in the source). -/
theorem claim_C7_contains_total_absent_false
    {K V K2 V2 : Type} [LinearOrder K] [LinearOrder V]
    [DecidableEq K2] [DecidableEq V2]
    (m : List (K × List V)) (k : K) (v : V)
    (m2 : List (K2 × List V2)) (k2 : K2) (v2 : V2)
    (h1 : BTreeMapStd.get m k = none) (h2 : HashMapStd.get m2 k2 = none) :
    BTreeMapToSet.sub_contains m k v = false ∧
    HashMapToSet.sub_contains m2 k2 v2 = false :=
  ⟨BTreeMapToSet.contains_of_get_none m k v h1,
   HashMapToSet.h_contains_of_get_none m2 k2 v2 h2⟩

/-- Witness for C7 at concrete maps with an absent key. -/
theorem claim_C7_contains_total_absent_false_witness :
    BTreeMapStd.get ([(1, [2])] : List (Nat × List Nat)) 3 = none ∧
    HashMapStd.get ([(1, [2])] : List (Nat × List Nat)) 3 = none ∧
    (BTreeMapToSet.sub_contains ([(1, [2])] : List (Nat × List Nat)) 3 2
       = false ∧
     HashMapToSet.sub_contains ([(1, [2])] : List (Nat × List Nat)) 3 2
       = false) :=
  ⟨by decide, by decide,
   claim_C7_contains_total_absent_false [(1, [2])] 3 2 [(1, [2])] 3 2
     (by decide) (by decide)⟩

/-- C8: when the metadata query succeeds with byte length `L`, each
path-index insert/remove returns the same result and produces the same
state as the corresponding generic operation at key `L`. -/
theorem claim_C8_path_ops_delegate_to_generic
    (fsLen : PathBuf → Option Nat) (p : PathBuf) (L : Nat)
    (mB mH : List (Nat × List PathBuf)) (h : fsLen p = some L) :
    BTreeMapOfFileLenToSetOfPathBuf.sub_insert_path fsLen mB p
      = some (BTreeMapToSet.sub_insert mB L p) ∧
    BTreeMapOfFileLenToSetOfPathBuf.sub_remove_path fsLen mB p
      = some (BTreeMapToSet.sub_remove mB L p) ∧
    HashMapOfFileLenToSetOfPathBuf.sub_insert_path fsLen mH p
      = some (HashMapToSet.sub_insert mH L p) ∧
    HashMapOfFileLenToSetOfPathBuf.sub_remove_path fsLen mH p
      = some (HashMapToSet.sub_remove mH L p) := by
  simp [BTreeMapOfFileLenToSetOfPathBuf.sub_insert_path,
    BTreeMapOfFileLenToSetOfPathBuf.sub_remove_path,
    HashMapOfFileLenToSetOfPathBuf.sub_insert_path,
    HashMapOfFileLenToSetOfPathBuf.sub_remove_path,
    BTreeMapToSet.sub_insert, BTreeMapToSet.sub_remove,
    HashMapToSet.sub_insert, HashMapToSet.sub_remove, h]

/-- Witness for C8 at a concrete oracle, maps and path. -/
theorem claim_C8_path_ops_delegate_to_generic_witness :
    ((fun _ => some 5) "alpha.txt" = (some 5 : Option Nat)) ∧
    (BTreeMapOfFileLenToSetOfPathBuf.sub_insert_path (fun _ => some 5)
       [] "alpha.txt" = some (BTreeMapToSet.sub_insert [] 5 "alpha.txt") ∧
     BTreeMapOfFileLenToSetOfPathBuf.sub_remove_path (fun _ => some 5)
       [] "alpha.txt" = some (BTreeMapToSet.sub_remove [] 5 "alpha.txt") ∧
     HashMapOfFileLenToSetOfPathBuf.sub_insert_path (fun _ => some 5)
       [] "alpha.txt" = some (HashMapToSet.sub_insert [] 5 "alpha.txt") ∧
     HashMapOfFileLenToSetOfPathBuf.sub_remove_path (fun _ => some 5)
       [] "alpha.txt" = some (HashMapToSet.sub_remove [] 5 "alpha.txt")) :=
  ⟨rfl, claim_C8_path_ops_delegate_to_generic (fun _ => some 5)
    "alpha.txt" 5 [] [] rfl⟩

/-- C9: for both variants, `sub_insert(k, v)` and `sub_remove(k, v)` leave
the membership of every other pair `(q, w) ≠ (k, v)` unchanged (the
ordered variant additionally assumes its container invariant, which the
Rust `BTreeMap`/`BTreeSet` maintain by construction). -/
theorem claim_C9_ops_frame_other_pairs
    {K V K2 V2 : Type} [LinearOrder K] [LinearOrder V]
    [DecidableEq K2] [DecidableEq V2]
    (m : List (K × List V)) (k : K) (v : V) (q : K) (w : V)
    (m2 : List (K2 × List V2)) (k2 : K2) (v2 : V2) (q2 : K2) (w2 : V2)
    (hWF : BTreeMapToSet.WF m)
    (hne : (q, w) ≠ (k, v)) (hne2 : (q2, w2) ≠ (k2, v2)) :
    BTreeMapToSet.sub_contains (BTreeMapToSet.sub_insert m k v).2 q w
      = BTreeMapToSet.sub_contains m q w ∧
    BTreeMapToSet.sub_contains (BTreeMapToSet.sub_remove m k v).2 q w
      = BTreeMapToSet.sub_contains m q w ∧
    HashMapToSet.sub_contains (HashMapToSet.sub_insert m2 k2 v2).2 q2 w2
      = HashMapToSet.sub_contains m2 q2 w2 ∧
    HashMapToSet.sub_contains (HashMapToSet.sub_remove m2 k2 v2).2 q2 w2
      = HashMapToSet.sub_contains m2 q2 w2 :=
  ⟨BTreeMapToSet.contains_insert_frame m k v q w hWF hne,
   BTreeMapToSet.contains_remove_frame m k v q w hne,
   HashMapToSet.h_contains_insert_frame m2 k2 v2 q2 w2 hne2,
   HashMapToSet.h_contains_remove_frame m2 k2 v2 q2 w2 hne2⟩

/-- Witness for C9 at a concrete map and two distinct pairs. -/
theorem claim_C9_ops_frame_other_pairs_witness :
    BTreeMapToSet.WF ([(1, [2]), (3, [4])] : List (Nat × List Nat)) ∧
    ((3, 4) : Nat × Nat) ≠ (1, 2) ∧ ((1, 4) : Nat × Nat) ≠ (1, 2) ∧
    (BTreeMapToSet.sub_contains
       (BTreeMapToSet.sub_insert
         ([(1, [2]), (3, [4])] : List (Nat × List Nat)) 1 2).2 3 4
       = BTreeMapToSet.sub_contains [(1, [2]), (3, [4])] 3 4 ∧
     BTreeMapToSet.sub_contains
       (BTreeMapToSet.sub_remove
         ([(1, [2]), (3, [4])] : List (Nat × List Nat)) 1 2).2 3 4
       = BTreeMapToSet.sub_contains [(1, [2]), (3, [4])] 3 4 ∧
     HashMapToSet.sub_contains
       (HashMapToSet.sub_insert
         ([(1, [2]), (3, [4])] : List (Nat × List Nat)) 1 2).2 1 4
       = HashMapToSet.sub_contains [(1, [2]), (3, [4])] 1 4 ∧
     HashMapToSet.sub_contains
       (HashMapToSet.sub_remove
         ([(1, [2]), (3, [4])] : List (Nat × List Nat)) 1 2).2 1 4
       = HashMapToSet.sub_contains [(1, [2]), (3, [4])] 1 4) :=
  ⟨by decide, by decide, by decide,
   claim_C9_ops_frame_other_pairs [(1, [2]), (3, [4])] 1 2 3 4
     [(1, [2]), (3, [4])] 1 2 1 4 (by decide) (by decide) (by decide)⟩

/-- C10: for both variants, `sub_remove(k, v)` on a present key whose
bucket does not hold `v` returns `false` and leaves the entire map state
unchanged, including the key's entry and its set. -/
theorem claim_C10_remove_missing_value_noop
    {K V K2 V2 : Type} [LinearOrder K] [LinearOrder V]
    [DecidableEq K2] [DecidableEq V2]
    (m : List (K × List V)) (k : K) (v : V) (s : List V)
    (m2 : List (K2 × List V2)) (k2 : K2) (v2 : V2) (s2 : List V2)
    (hg : BTreeMapStd.get m k = some s)
    (hc : BTreeSetStd.setContains s v = false)
    (hg2 : HashMapStd.get m2 k2 = some s2)
    (hc2 : HashSetStd.setContains s2 v2 = false) :
    BTreeMapToSet.sub_remove m k v = (false, m) ∧
    HashMapToSet.sub_remove m2 k2 v2 = (false, m2) :=
  ⟨BTreeMapToSet.remove_of_not_contains m k v s hg hc,
   HashMapToSet.h_remove_of_not_contains m2 k2 v2 s2 hg2 hc2⟩

/-- Witness for C10 at a concrete map, present key and absent value. -/
theorem claim_C10_remove_missing_value_noop_witness :
    BTreeMapStd.get ([(1, [2])] : List (Nat × List Nat)) 1 = some [2] ∧
    BTreeSetStd.setContains ([2] : List Nat) 3 = false ∧
    HashMapStd.get ([(1, [2])] : List (Nat × List Nat)) 1 = some [2] ∧
    HashSetStd.setContains ([2] : List Nat) 3 = false ∧
    (BTreeMapToSet.sub_remove ([(1, [2])] : List (Nat × List Nat)) 1 3
       = (false, [(1, [2])]) ∧
     HashMapToSet.sub_remove ([(1, [2])] : List (Nat × List Nat)) 1 3
       = (false, [(1, [2])])) :=
  ⟨by decide, by decide, by decide, by decide,
   claim_C10_remove_missing_value_noop [(1, [2])] 1 3 [2] [(1, [2])] 1 3 [2]
     (by decide) (by decide) (by decide) (by decide)⟩

/-- Witness for C2 at concrete maps. -/
theorem claim_C2_insert_then_contains_witness :
    BTreeMapToSet.sub_contains
      (BTreeMapToSet.sub_insert
        ([(1, [2])] : List (Nat × List Nat)) 3 4).2 3 4 = true ∧
    HashMapToSet.sub_contains
      (HashMapToSet.sub_insert
        ([(1, [2])] : List (Nat × List Nat)) 3 4).2 3 4 = true :=
  claim_C2_insert_then_contains [(1, [2])] 3 4 [(1, [2])] 3 4

/-- Witness for C4 at concrete maps. -/
theorem claim_C4_insert_twice_second_noop_witness :
    BTreeMapToSet.sub_insert
      (BTreeMapToSet.sub_insert
        ([(1, [2])] : List (Nat × List Nat)) 1 4).2 1 4
      = (false, (BTreeMapToSet.sub_insert
          ([(1, [2])] : List (Nat × List Nat)) 1 4).2) ∧
    HashMapToSet.sub_insert
      (HashMapToSet.sub_insert
        ([(1, [2])] : List (Nat × List Nat)) 1 4).2 1 4
      = (false, (HashMapToSet.sub_insert
          ([(1, [2])] : List (Nat × List Nat)) 1 4).2) :=
  claim_C4_insert_twice_second_noop [(1, [2])] 1 4 [(1, [2])] 1 4
